import Mathlib

/-!
Verification of the nestjs-cqrs-schematics generator core.

File contents are modelled as `List Char`; every function is a direct
translation of the corresponding TypeScript function (JavaScript string and
regex semantics made explicit: greedy/lazy matching, global scanning,
`String.prototype.replace` substitution patterns).
-/

namespace Cqrs

/-- The characters of a Lean string literal, used to write file contents. -/
def strL (s : String) : List Char := s.data

/-- Single-quote character (written by code to avoid literal-escaping issues). -/
def qc : Char := Char.ofNat 39

/-- Double-quote character. -/
def dq : Char := Char.ofNat 34

/-- Backtick character. -/
def bt : Char := Char.ofNat 96

/-- JavaScript `\s` (also the set trimmed by `String.prototype.trim`):
whitespace and line terminators, including the Unicode ones. -/
def isJsSpace (c : Char) : Bool :=
  c == ' ' || c == '\t' || c == '\n' || c == Char.ofNat 0x0b ||
  c == Char.ofNat 0x0c || c == '\r' || c == Char.ofNat 0xa0 ||
  c == Char.ofNat 0x1680 || (Char.ofNat 0x2000 ≤ c && c ≤ Char.ofNat 0x200a) ||
  c == Char.ofNat 0x2028 || c == Char.ofNat 0x2029 || c == Char.ofNat 0x202f ||
  c == Char.ofNat 0x205f || c == Char.ofNat 0x3000 || c == Char.ofNat 0xfeff

/-- JavaScript line terminators: the characters `.` does not match. -/
def isLineTerm (c : Char) : Bool :=
  c == '\n' || c == '\r' || c == Char.ofNat 0x2028 || c == Char.ofNat 0x2029

/-- What the regex `.` matches (no `s` flag): any non-line-terminator. -/
def jsDot (c : Char) : Bool := ! isLineTerm c

/-- What the regex class matching either quote character matches. -/
def isQuote (c : Char) : Bool := c == qc || c == dq

/-- What the regex `\w` matches. -/
def isWordChar (c : Char) : Bool := c.isAlpha || c.isDigit || c == '_'

/-- JavaScript `String.prototype.includes`: `includes s sub` is
`s.includes(sub)`. -/
def includes (s sub : List Char) : Bool :=
  match s with
  | [] => sub.isPrefixOf ([] : List Char)
  | _ :: r => sub.isPrefixOf s || includes r sub

/-- Drop satisfying characters from the end of a list. -/
def dropRightWhile (p : Char → Bool) (l : List Char) : List Char :=
  (l.reverse.dropWhile p).reverse

/-- JavaScript `String.prototype.trim`: strip whitespace from both ends. -/
def trimJs (l : List Char) : List Char :=
  dropRightWhile isJsSpace (l.dropWhile isJsSpace)

/-- JavaScript `String.prototype.split(sep)` for a single-character
separator: empty pieces are kept, and splitting the empty string yields
one empty piece. -/
def splitKeep (sep : Char) : List Char → List (List Char)
  | [] => [[]]
  | c :: r =>
    if c = sep then [] :: splitKeep sep r
    else
      match splitKeep sep r with
      | [] => [[c]]
      | h :: t => (c :: h) :: t

/-- JavaScript `Array.prototype.join(sep)` for a single-character separator. -/
def joinChar (sep : Char) : List (List Char) → List Char
  | [] => []
  | [p] => p
  | p :: q :: r => p ++ sep :: joinChar sep (q :: r)

/-! ### angular-devkit core strings

`camelize`, `capitalize`, `decamelize`, `dasherize`, `classify`, exactly as in
`packages/angular_devkit/core/src/utils/strings.ts` (case mappings are the
ASCII ones, which cover every identifier the schematics handle). -/

/-- A separator of the camelize regex `(-|_|\.|\s)+(.)?` (global). -/
def isCamelSep (c : Char) : Bool := c == '-' || c == '_' || c == '.' || isJsSpace c

/-- The global replace of the camelize regex with
`(_m, _sep, chr) => chr ? chr.toUpperCase() : ''`: each maximal separator run
is deleted and the character following it (if any) uppercased. -/
def camelizeGo : Nat → List Char → List Char
  | 0, s => s
  | _, [] => []
  | fuel + 1, c :: r =>
    if isCamelSep c then
      match r.dropWhile isCamelSep with
      | [] => []
      | d :: r2 => d.toUpper :: camelizeGo fuel r2
    else c :: camelizeGo fuel r

/-- `strings.camelize`: separator folding, then `/^([A-Z])/` lowercased. -/
def camelize (s : List Char) : List Char :=
  match camelizeGo s.length s with
  | [] => []
  | c :: r => (if c.isUpper then c.toLower else c) :: r

/-- `strings.capitalize`: `charAt(0).toUpperCase() + substr(1)`. -/
def capitalize : List Char → List Char
  | [] => []
  | c :: r => c.toUpper :: r

/-- The global replace of the decamelize regex `([a-z\d])([A-Z])` with
the substitution pattern inserting an underscore between the captures. -/
def decamelizeGo : List Char → List Char
  | [] => []
  | [c] => [c]
  | c1 :: c2 :: r =>
    if (c1.isLower || c1.isDigit) && c2.isUpper then
      c1 :: '_' :: c2 :: decamelizeGo r
    else c1 :: decamelizeGo (c2 :: r)

/-- `strings.decamelize`: underscore insertion then `toLowerCase()`. -/
def decamelize (s : List Char) : List Char :=
  (decamelizeGo s).map Char.toLower

/-- `strings.dasherize`: `decamelize(str)` with space and underscore
replaced by a dash. -/
def dasherize (s : List Char) : List Char :=
  (decamelize s).map fun c => if c == ' ' || c == '_' then '-' else c

/-- `strings.classify`: split on dots, `capitalize(camelize(part))` each
part, join with dots. -/
def classify (s : List Char) : List Char :=
  joinChar '.' ((splitKeep '.' s).map fun p => capitalize (camelize p))

example : camelize (strL "create user") = strL "createUser" := by decide
example : classify (strL "create user") = strL "CreateUser" := by decide
example : dasherize (strL "create user") = strL "create-user" := by decide
example : dasherize (strL "CreateUser") = strL "create-user" := by decide
example : classify (strL "a$&b") = strL "A$&b" := by decide
example : trimJs (strL "  a b  ") = strL "a b" := by decide

/-! ### JavaScript `String.prototype.replace` with a string pattern

The replacement string undergoes substitution (ECMA-262 GetSubstitution):
with a string pattern there are no capture groups, so only the dollar
pairs dollar-dollar, dollar-ampersand, dollar-backquote and
dollar-apostrophe are special; everything else is literal. -/

/-- GetSubstitution over the replacement string, given the matched text and
the portions of the subject before and after the match. -/
def expandRepl (matched before after : List Char) : List Char → List Char
  | [] => []
  | [c] => [c]
  | c :: c2 :: r =>
    if c = '$' then
      if c2 = '$' then '$' :: expandRepl matched before after r
      else if c2 = '&' then matched ++ expandRepl matched before after r
      else if c2 = bt then before ++ expandRepl matched before after r
      else if c2 = qc then after ++ expandRepl matched before after r
      else '$' :: expandRepl matched before after (c2 :: r)
    else c :: expandRepl matched before after (c2 :: r)

/-- Index of the first occurrence of `pat` in `s` (JavaScript `indexOf`). -/
def firstOccur : List Char → List Char → Option Nat
  | [], pat => if pat.isPrefixOf [] then some 0 else none
  | c :: r, pat =>
    if pat.isPrefixOf (c :: r) then some 0
    else (firstOccur r pat).map (· + 1)

/-- `s.replace(pat, repl)` with a string pattern: replace the first
occurrence of `pat`, applying substitution to `repl`. -/
def replaceFirstStr (s pat repl : List Char) : List Char :=
  match firstOccur s pat with
  | none => s
  | some i =>
    let before := s.take i
    let after := s.drop (i + pat.length)
    before ++ expandRepl pat before after repl ++ after

/-! ### The import-statement regex

`/import.*from\s+['"][^'"]+['"];/g` over the whole content, with the
backtracking engine's semantics: at each start position the greedy `.*`
takes the longest extent that still lets the deterministic tail match. -/

/-- Length of a match of `from\s+['"][^'"]+['"];` at the start of `t`
(each greedy piece here is maximal-munch: no quote is whitespace and the
character ending a `[^'"]+` run is a quote, so no backtracking arises). -/
def matchFromTail (t : List Char) : Option Nat :=
  if (strL "from").isPrefixOf t then
    let t1 := t.drop 4
    let w := (t1.takeWhile isJsSpace).length
    if w = 0 then none
    else
      match t1.drop w with
      | c :: t2 =>
        if isQuote c then
          let k := (t2.takeWhile (fun d => ! isQuote d)).length
          if k = 0 then none
          else
            match t2.drop k with
            | c2 :: t3 =>
              if isQuote c2 then
                match t3 with
                | ';' :: _ => some (4 + w + 1 + k + 1 + 1)
                | _ => none
              else none
            | [] => none
        else none
      | [] => none
  else none

/-- Greedy `.*`: try the extent `i`, then shorter ones, returning the
total length (extent plus tail match) of the first that succeeds. -/
def tryDotStar (t : List Char) : Nat → Option Nat
  | 0 => matchFromTail t
  | i + 1 =>
    match matchFromTail (t.drop (i + 1)) with
    | some l => some (i + 1 + l)
    | none => tryDotStar t i

/-- Length of a match of the import regex at the start of `s`. -/
def matchImportAt (s : List Char) : Option Nat :=
  if (strL "import").isPrefixOf s then
    let t := s.drop 6
    match tryDotStar t (t.takeWhile jsDot).length with
    | some n => some (6 + n)
    | none => none
  else none

/-- Global scan of `content.match(importRegex)`: leftmost matches, resuming
after each match (fuelled by the content's length; every match is
non-empty, so the fuel suffices). -/
def goImports : Nat → List Char → List (List Char)
  | 0, _ => []
  | _, [] => []
  | fuel + 1, s =>
    match matchImportAt s with
    | some l => s.take l :: goImports fuel (s.drop l)
    | none =>
      match s with
      | [] => []
      | _ :: r => goImports fuel r

/-- All matches of the import regex in `content` (empty list models the
`null` return of `match`). -/
def matchImports (content : List Char) : List (List Char) :=
  goImports content.length content

/-- `content-manipulator.ts` `addImportStatement`: insert after the last
found import statement, or prepend when none is found. -/
def addImportStatement (content importStatement : List Char) : List Char :=
  match (matchImports content).getLast? with
  | some lastImport =>
    replaceFirstStr content lastImport (lastImport ++ '\n' :: importStatement)
  | none => importStatement ++ '\n' :: content

/-! ### The providers-array regex

`/providers:\s*\[([\s\S]*?)\]/m`: leftmost occurrence of the literal
`providers:`, greedy `\s*`, `[`, then the lazy `([\s\S]*?)\]` captures up
to the first closing bracket. -/

/-- A providers-array match at the very start of `s`: `(ws, inner, post)`.
After the literal `providers:` the greedy `\s*` is a maximal whitespace
run (no backtracking can arise: `[` is not whitespace), then `[`, then the
lazy capture runs to the first `]`, which must exist. -/
def provMatchHere (s : List Char) : Option (List Char × List Char × List Char) :=
  if (strL "providers:").isPrefixOf s then
    let t := s.drop 10
    let ws := t.takeWhile isJsSpace
    let rest := t.drop ws.length
    if rest.head? = some '[' then
      let u := rest.tail
      let inner := u.takeWhile (fun c => c != ']')
      let rest2 := u.drop inner.length
      if rest2.head? = some ']' then some (ws, inner, rest2.tail)
      else none
    else none
  else none

/-- Leftmost providers-array match: `(pre, ws, inner, post)` with
`content = pre ++ "providers:" ++ ws ++ "[" ++ inner ++ "]" ++ post`. -/
def provSearch : List Char → Option (List Char × List Char × List Char × List Char)
  | [] =>
    match provMatchHere [] with
    | some (ws, inner, post) => some ([], ws, inner, post)
    | none => none
  | c :: r =>
    match provMatchHere (c :: r) with
    | some (ws, inner, post) => some ([], ws, inner, post)
    | none => (provSearch r).map fun q => (c :: q.1, q.2.1, q.2.2.1, q.2.2.2)

/-- `content-manipulator.ts` `addProviderEntry`: replace the providers
match through the replacer function (no-op when the classified handler
name already appears in the captured inner text; otherwise re-emit the
array as `providers: [` + trimmed entries + optional comma + the new
entry + a two-space-indented closing bracket). -/
def addProviderEntry (content providerEntry name : List Char) : List Char :=
  match provSearch content with
  | none => content
  | some (pre, ws, inner, post) =>
    if includes inner (classify name ++ strL "Handler") then
      pre ++ strL "providers:" ++ ws ++ '[' :: (inner ++ ']' :: post)
    else
      let existingProviders := trimJs inner
      let sep : List Char :=
        if existingProviders ≠ [] ∧ existingProviders.getLast? ≠ some ',' then [','] else []
      pre ++ strL "providers: [" ++ existingProviders ++ sep ++
        '\n' :: (providerEntry ++ '\n' :: (strL "  ]" ++ post))

/-- The module-updater check `/providers\s*:\s*\[/` at the start of `s`. -/
def providersHeadHere (s : List Char) : Bool :=
  (strL "providers").isPrefixOf s &&
    (match (s.drop 9).dropWhile isJsSpace with
     | ':' :: u =>
       match u.dropWhile isJsSpace with
       | '[' :: _ => true
       | _ => false
     | _ => false)

/-- `/providers\s*:\s*\[/.test(content)`. -/
def providersTest : List Char → Bool
  | [] => providersHeadHere []
  | s@(_ :: r) => providersHeadHere s || providersTest r

/-! ### The two updateModuleFile content transformations -/

/-- Errors raised by the module update (`SchematicsException` reasons). -/
inductive UpdateError where
  | couldNotRead
  | noProvidersArray
deriving DecidableEq

/-- The import statement `updateModuleFile` builds. -/
def mkImportStatement (name relativeImportPath : List Char) : List Char :=
  strL "import \x7b " ++ classify name ++ strL "Handler \x7d from " ++
    qc :: (relativeImportPath ++ [qc, ';'])

/-- The provider entry `updateModuleFile` builds. -/
def mkProviderEntry (name : List Char) : List Char :=
  strL "    " ++ classify name ++ strL "Handler,"

/-- `utils/module-updater.ts` `updateModuleFile`, content part: guard on
the exact import statement or exact provider entry, import insertion,
the providers-array check (raising the no-providers-array error), then
registration insertion. `ok none` models the guarded early return (no
write); `ok (some c)` models `tree.overwrite` with `c`. -/
def updateModuleContentMU (name relPath content : List Char) :
    Except UpdateError (Option (List Char)) :=
  let importStatement := mkImportStatement name relPath
  let providerEntry := mkProviderEntry name
  if includes content importStatement || includes content providerEntry then
    .ok none
  else
    let updatedImports := addImportStatement content importStatement
    if ! providersTest updatedImports then
      .error .noProvidersArray
    else
      .ok (some (addProviderEntry updatedImports providerEntry name))

/-- `command.ts` `updateModuleFile` (same code in `utils/helpers/index.ts`,
used by the query pipeline), content part: guard on the exact import
statement or the bare classified handler name, import insertion, then
registration insertion — with no providers-array check. `none` models the
guarded early return; `some c` models `tree.overwrite` with `c`. -/
def updateModuleContentCmd (name relPath content : List Char) : Option (List Char) :=
  let importStatement := mkImportStatement name relPath
  if includes content importStatement ||
      includes content (classify name ++ strL "Handler") then
    none
  else
    some (addProviderEntry (addImportStatement content importStatement)
      (mkProviderEntry name) name)

/-- One run of the module-updater content transformation as it acts on the
file: the written content on success, the unchanged content when the guard
skips or the update errors. -/
def runMU (name relPath content : List Char) : List Char :=
  match updateModuleContentMU name relPath content with
  | .ok (some c') => c'
  | _ => content

/-! ### path-utilities.ts -/

/-- `split("/")` then `.filter(part => part !== "")`. -/
def splitSegs (s : List Char) : List (List Char) :=
  (splitKeep '/' s).filter fun p => !p.isEmpty

/-- The replace of `/\/$/` with the empty string: remove one trailing slash. -/
def dropTrailingSlash (s : List Char) : List Char :=
  if s.getLast? = some '/' then s.dropLast else s

/-- `path-utilities.ts` `getParentPath`: split into parts, pop `levels`
parts (stopping at the root), rejoin with a trailing slash, the empty
string for the root itself. -/
def getParentPath (path : List Char) (levels : Nat) : List Char :=
  let pathParts := splitSegs (dropTrailingSlash path)
  let remaining := pathParts.take (pathParts.length - levels)
  if remaining.isEmpty then [] else joinChar '/' remaining ++ ['/']

/-- The `while` loop of `getRelativePath`: length of the longest common
prefix of the two segment lists. -/
def commonLen : List (List Char) → List (List Char) → Nat
  | a :: as, b :: bs => if a = b then commonLen as bs + 1 else 0
  | _, _ => 0

/-- `path-utilities.ts` `getRelativePath`: one `..` per source segment past
the common prefix, then the target segments past it, joined with `/`, and
a `./` prefix when the result does not start with `../`. -/
def getRelativePath (fromPath toPath : List Char) : List Char :=
  let fromParts := splitSegs (dropTrailingSlash fromPath)
  let toParts := splitSegs toPath
  let c := commonLen fromParts toParts
  let upLevels := fromParts.length - c
  let downPath := toParts.drop c
  let relativeParts := List.replicate upLevels (strL "..") ++ downPath
  let result := joinChar '/' relativeParts
  if (strL "../").isPrefixOf result then result else strL "./" ++ result

/-- `modulePath.substring(0, modulePath.lastIndexOf("/") + 1)`: everything
up to and including the last slash (empty when there is no slash). -/
def moduleDirOf (modulePath : List Char) : List Char :=
  dropRightWhile (fun c => c != '/') modulePath

/-- `path-utilities.ts` `calculateRelativeImportPath`. -/
def calculateRelativeImportPath (modulePath handlerBasePath name : List Char)
    (flat : Bool) : List Char :=
  let moduleDir := moduleDirOf modulePath
  let handlerPath :=
    if flat then handlerBasePath ++ name ++ strL ".handler"
    else handlerBasePath ++ strL "handlers/" ++ name ++ strL ".handler"
  getRelativePath moduleDir handlerPath

/-- Modelled from the spec: standard relative-path resolution against a
base directory's segment list — `.` is skipped, `..` pops one segment,
anything else is appended. Used to state that the computed relative path
resolves back to the target. -/
def resolveRel (base rel : List (List Char)) : List (List Char) :=
  rel.foldl
    (fun acc seg =>
      if seg = strL "." then acc
      else if seg = strL ".." then acc.dropLast
      else acc ++ [seg])
    base

/-! ### module-updater.ts `findModuleFile`

The virtual tree's directory listing is abstracted as a function from a
directory path to its direct file names; `none` models `tree.getDir`
throwing (directory inaccessible). -/

/-- `findModuleFile`: list the directory one level up, keep names ending in
`.module.ts`, return the first prefixed with the parent path; `none` for
zero matches or an inaccessible parent. -/
def findModuleFile (lister : List Char → Option (List (List Char)))
    (currentPath : List Char) : Option (List Char) :=
  let parentPath := getParentPath currentPath 1
  match lister parentPath with
  | none => none
  | some subfiles =>
    let moduleFiles :=
      ((subfiles.filter fun f => (strL ".module.ts").isSuffixOf f).map
        fun f => parentPath ++ f)
    match moduleFiles with
    | [] => none
    | m :: _ => some m

/-! ### option-normalizer.ts -/

/-- Raw schematic options; `path = []` models an absent (or empty, hence
falsy) path option. -/
structure GenerateOptions where
  name : List Char
  path : List Char
  skipImport : Bool
  flat : Bool

/-- The result of `normalizeOptions`. -/
structure NormalizedOptions where
  name : List Char
  normalizedPath : List Char
  skipImport : Bool
  flat : Bool
deriving DecidableEq

/-- `DEFAULT_OPTIONS.PATH`. -/
def DEFAULT_PATH : List Char := strL "src"

/-- `option-normalizer.ts` `normalizeOptions` (the same code is inlined in
`command.ts` and in `utils/helpers/index.ts`). -/
def normalizeOptions (options : GenerateOptions) : NormalizedOptions :=
  let name := dasherize options.name
  let path := if options.path ≠ [] then strL "src/" ++ options.path else DEFAULT_PATH
  let normalizedPath := if path.getLast? = some '/' then path else path ++ ['/']
  { name := name, normalizedPath := normalizedPath,
    skipImport := options.skipImport, flat := options.flat }

/-! ### utils/template.ts `processTemplate`

The global replace of the template-token regex (literal `<%= `, a `\w+`
function name, a parenthesised `\w+` argument, literal ` %>`) through the
replacer recognising `classify`, `dasherize` and `camelize` applied to
`name`, leaving unrecognised tokens untouched. -/

/-- A template token at the start of `s`: `(fn, arg, total length)`. -/
def matchTplAt (s : List Char) : Option (List Char × List Char × Nat) :=
  if (strL "<%= ").isPrefixOf s then
    let t := s.drop 4
    let fn := t.takeWhile isWordChar
    if fn.isEmpty then none
    else
      match t.drop fn.length with
      | '(' :: u =>
        let arg := u.takeWhile isWordChar
        if arg.isEmpty then none
        else
          match u.drop arg.length with
          | ')' :: v =>
            if (strL " %>").isPrefixOf v then
              some (fn, arg, 4 + fn.length + 1 + arg.length + 1 + 3)
            else none
          | _ => none
      | _ => none
  else none

/-- The replacer function of `processTemplate`. -/
def tplReplacement (fn arg name mtext : List Char) : List Char :=
  if fn = strL "classify" ∧ arg = strL "name" then classify name
  else if fn = strL "dasherize" ∧ arg = strL "name" then dasherize name
  else if fn = strL "camelize" ∧ arg = strL "name" then camelize name
  else mtext

/-- Global template-token replacement (fuelled scan). -/
def processTemplateGo : Nat → List Char → List Char → List Char
  | 0, s, _ => s
  | fuel + 1, s, name =>
    match matchTplAt s with
    | some (fn, arg, len) =>
      tplReplacement fn arg name (s.take len) ++ processTemplateGo fuel (s.drop len) name
    | none =>
      match s with
      | [] => []
      | c :: r => c :: processTemplateGo fuel r name

/-- `utils/template.ts` `processTemplate`. -/
def processTemplate (template name : List Char) : List Char :=
  processTemplateGo template.length template name

/-! ### command.ts: templates, file creation, the full pipeline

The virtual `Tree` is a list of `(path, content)` pairs in creation order;
`tree.create` fails on an existing path, `tree.overwrite` replaces the
content at a path. -/

/-- `TEMPLATES.COMMAND` of `command.ts`, byte for byte. -/
def TEMPLATE_COMMAND : List Char :=
  strL "\n\n  import \x7b Command \x7d from '@nestjs/cqrs';\n\nexport interface <%= classify(name) %>CommandPayload \x7b\n  name: string;\n  description?: string;\n\x7d\n\nexport class <%= classify(name) %>Command extends Command<any> \x7b\n  constructor(public readonly payload: <%= classify(name) %>CommandPayload) \x7b\n    super();\n  \x7d\n\x7d\n"

/-- `TEMPLATES.HANDLER` of `command.ts`, byte for byte. -/
def TEMPLATE_HANDLER : List Char :=
  strL "\nimport \x7b CommandHandler, ICommandHandler \x7d from '@nestjs/cqrs';\nimport \x7b <%= classify(name) %>Command \x7d from '<%= importPath %>';\n\n@CommandHandler(<%= classify(name) %>Command)\nexport class <%= classify(name) %>Handler implements ICommandHandler<<%= classify(name) %>Command> \x7b\n  constructor() \x7b\x7d\n\n  async execute(command: <%= classify(name) %>Command): Promise<any> \x7b\n    const \x7b payload \x7d = command;\n    return \x7b success: true \x7d;\n  \x7d\n\x7d\n"

/-- A virtual file tree: `(path, content)` pairs in creation order. -/
abbrev Tree := List (List Char × List Char)

/-- Errors of the command pipeline (`SchematicsException` reasons). -/
inductive CmdError where
  | nameRequired
  | fileAlreadyExists
  | couldNotReadModule
deriving DecidableEq

/-- `tree.create`: add a file, failing when the path already exists. -/
def treeCreate (tree : Tree) (path content : List Char) : Except CmdError Tree :=
  if (tree.map Prod.fst).contains path then .error .fileAlreadyExists
  else .ok (tree ++ [(path, content)])

/-- `tree.read` (null when absent). -/
def treeRead (tree : Tree) (path : List Char) : Option (List Char) :=
  (tree.find? fun f => f.1 == path).map Prod.snd

/-- `tree.overwrite`. -/
def treeOverwrite (tree : Tree) (path content : List Char) : Tree :=
  tree.map fun f => if f.1 == path then (f.1, content) else f

/-- `tree.getDir(dir).subfiles`: names of files lying directly in `dir`. -/
def subfilesOf (tree : Tree) (dir : List Char) : List (List Char) :=
  tree.filterMap fun f =>
    if dir.isPrefixOf f.1 && !(f.1.drop dir.length).contains '/' then
      some (f.1.drop dir.length)
    else none

/-- `command.ts` `updateModuleFile`, tree level: locate the module file,
read it, run the content transformation, overwrite on change. No
module file, or a guarded skip, leaves the tree unchanged. -/
def updateModuleFileCmd (tree : Tree) (name normalizedPath : List Char)
    (flat : Bool) : Except CmdError Tree :=
  match findModuleFile (fun d => some (subfilesOf tree d)) normalizedPath with
  | none => .ok tree
  | some modulePath =>
    match treeRead tree modulePath with
    | none => .error .couldNotReadModule
    | some moduleContent =>
      let relativeImportPath :=
        calculateRelativeImportPath modulePath normalizedPath name flat
      match updateModuleContentCmd name relativeImportPath moduleContent with
      | none => .ok tree
      | some c' => .ok (treeOverwrite tree modulePath c')

/-- `command.ts` `createCommandFiles`: the command file, then the handler
file, at flat- or structured-layout paths. -/
def createCommandFiles (tree : Tree) (name normalizedPath : List Char)
    (flat : Bool) (commandContent handlerContent : List Char) : Except CmdError Tree := do
  let commandPath := if flat then normalizedPath else normalizedPath ++ strL "impl/"
  let handlerPath := if flat then normalizedPath else normalizedPath ++ strL "handlers/"
  let t1 ← treeCreate tree (commandPath ++ name ++ strL ".command.ts") commandContent
  treeCreate t1 (handlerPath ++ name ++ strL ".handler.ts") handlerContent

/-- `command.ts` `command`: validate, normalize, render both templates,
create the two files, and (unless `skipImport`) update the module file. -/
def commandRun (tree : Tree) (options : GenerateOptions) : Except CmdError Tree := do
  if options.name.isEmpty then throw .nameRequired
  let opts := normalizeOptions options
  let commandContent := processTemplate TEMPLATE_COMMAND opts.name
  let importPath :=
    if opts.flat then strL "./" ++ opts.name ++ strL ".command"
    else strL "../impl/" ++ opts.name ++ strL ".command"
  let handlerTemplate := replaceFirstStr TEMPLATE_HANDLER (strL "<%= importPath %>") importPath
  let handlerContent := processTemplate handlerTemplate opts.name
  let t1 ← createCommandFiles tree opts.name opts.normalizedPath opts.flat
    commandContent handlerContent
  if !opts.skipImport then
    updateModuleFileCmd t1 opts.name opts.normalizedPath opts.flat
  else
    return t1

/-- Whether two commas stand next to each other anywhere in `l`. -/
def hasDoubleComma : List Char → Bool
  | c1 :: c2 :: r => (c1 == ',' && c2 == ',') || hasDoubleComma (c2 :: r)
  | _ => false

/-- Whether a last character and a first character form a double comma. -/
def pairComma : Option Char → Option Char → Bool
  | some x, some y => x == ',' && y == ','
  | _, _ => false

/-- The lister used by the module-finder witnesses: a root directory with
two module files among others, a directory with no module file, and
every other directory inaccessible. -/
def witnessLister : List Char → Option (List (List Char)) :=
  fun d =>
    if d = [] then some [strL "app.module.ts", strL "util.ts", strL "b.module.ts"]
    else if d = strL "empty/" then some [strL "x.ts"]
    else none

/-- The tree used by the handler-name-guard witness: one module file whose
content mentions the classified handler name only inside a comment. -/
def witnessTree : Tree :=
  [(strL "app.module.ts",
    strL "// mentions CreateUserHandler in a comment\nexport const m = 1;\n")]

/-! ## Lemmas -/

theorem includes_iff {s sub : List Char} : includes s sub = true ↔ sub <:+: s := by
  induction s with
  | nil => simp [includes]
  | cons c r ih => simp [includes, ih, List.infix_cons_iff]

theorem drop_len_takeWhile (p : Char → Bool) (l : List Char) :
    l.drop (l.takeWhile p).length = l.dropWhile p := by
  induction l with
  | nil => rfl
  | cons c r ih =>
    by_cases h : p c <;> simp [List.takeWhile_cons, List.dropWhile_cons, h, ih]

theorem provMatchHere_sound {s ws inner post : List Char}
    (h : provMatchHere s = some (ws, inner, post)) :
    s = strL "providers:" ++ ws ++ '[' :: (inner ++ ']' :: post) ∧
      (∀ c ∈ ws, isJsSpace c) ∧ ']' ∉ inner := by
  unfold provMatchHere at h
  split at h
  case isFalse => exact absurd h (by simp)
  case isTrue hp =>
    obtain ⟨t, rfl⟩ : ∃ t, s = strL "providers:" ++ t := by
      have := List.isPrefixOf_iff_prefix.mp hp
      exact ⟨_, (List.prefix_iff_eq_append.mp this).symm⟩
    have hdrop : (strL "providers:" ++ t).drop 10 = t := List.drop_left' (by rfl)
    rw [hdrop] at h
    simp only [drop_len_takeWhile] at h
    split at h
    case isFalse => exact absurd h (by simp)
    case isTrue hb =>
      split at h
      case isFalse => exact absurd h (by simp)
      case isTrue hb2 =>
        simp only [Option.some.injEq, Prod.mk.injEq] at h
        obtain ⟨rfl, rfl, rfl⟩ := h
        obtain ⟨u, hu⟩ : ∃ u, t.dropWhile isJsSpace = '[' :: u := by
          cases hd : t.dropWhile isJsSpace with
          | nil => rw [hd] at hb; simp at hb
          | cons c u =>
            rw [hd] at hb
            simp only [List.head?_cons, Option.some.injEq] at hb
            exact ⟨u, by rw [hb]⟩
        obtain ⟨post', hpost⟩ :
            ∃ post', u.dropWhile (fun c => c != ']') = ']' :: post' := by
          rw [hu, List.tail_cons] at hb2
          cases hd : u.dropWhile (fun c => c != ']') with
          | nil => rw [hd] at hb2; simp at hb2
          | cons c2 post' =>
            rw [hd] at hb2
            simp only [List.head?_cons, Option.some.injEq] at hb2
            exact ⟨post', by rw [hb2]⟩
        rw [hu, List.tail_cons, hpost, List.tail_cons]
        refine ⟨?_, fun c hc => List.mem_takeWhile_imp hc, fun hc => ?_⟩
        · have ht : t.takeWhile isJsSpace ++ ('[' :: u) = t := by
            rw [← hu]; exact List.takeWhile_append_dropWhile _ _
          have hu2 : u.takeWhile (fun c => c != ']') ++ (']' :: post') = u := by
            rw [← hpost]; exact List.takeWhile_append_dropWhile _ _
          conv_lhs => rw [← ht, ← hu2]
          simp
        · have := List.mem_takeWhile_imp hc
          simp at this

theorem provSearch_sound : ∀ {content pre ws inner post : List Char},
    provSearch content = some (pre, ws, inner, post) →
    content = pre ++ strL "providers:" ++ ws ++ '[' :: (inner ++ ']' :: post) ∧
      (∀ c ∈ ws, isJsSpace c) ∧ ']' ∉ inner := by
  intro content
  induction content with
  | nil => intro pre ws inner post h; exact absurd h (by simp [provSearch, provMatchHere])
  | cons c r ih =>
    intro pre ws inner post h
    rw [provSearch] at h
    revert h
    cases hm : provMatchHere (c :: r) with
    | some q =>
      obtain ⟨ws', inner', post'⟩ := q
      intro h
      simp only [Option.some.injEq, Prod.mk.injEq] at h
      obtain ⟨rfl, rfl, rfl, rfl⟩ := h
      have := provMatchHere_sound hm
      simpa using this
    | none =>
      intro h
      revert h
      cases hs : provSearch r with
      | none => intro h; exact absurd h (by simp)
      | some q =>
        intro h
        obtain ⟨pre', ws', inner', post'⟩ := q
        simp only [Option.map_some', Option.some.injEq, Prod.mk.injEq] at h
        obtain ⟨rfl, rfl, rfl, rfl⟩ := h
        obtain ⟨he, hws, hin⟩ := ih hs
        exact ⟨by simpa using congrArg (c :: ·) he, hws, hin⟩

/-! ## Claim C7: findModuleFile policy -/

/-- C7: `findModuleFile` searches only the directory one level up; zero
module files there (or an inaccessible parent) yields `null`, one yields
that file's path, several yield the first in the listing's order. -/
theorem c7_findModuleFile (lister : List Char → Option (List (List Char)))
    (cur : List Char) :
    (lister (getParentPath cur 1) = none → findModuleFile lister cur = none) ∧
    (∀ fs, lister (getParentPath cur 1) = some fs →
      ((fs.filter fun f => (strL ".module.ts").isSuffixOf f) = [] →
        findModuleFile lister cur = none) ∧
      (∀ m rest, (fs.filter fun f => (strL ".module.ts").isSuffixOf f) = m :: rest →
        findModuleFile lister cur = some (getParentPath cur 1 ++ m))) := by
  unfold findModuleFile
  refine ⟨fun h => by simp [h], fun fs hfs => ⟨fun hnil => ?_, fun m rest hcons => ?_⟩⟩
  · simp [hfs, hnil]
  · simp [hfs, hcons]

/-- Witness for C7: a parent directory with two module files among other
files returns the first; a directory with none returns `null`; an
inaccessible parent returns `null`. -/
theorem c7_witness :
    findModuleFile witnessLister (strL "src/") = some (strL "app.module.ts") ∧
    findModuleFile witnessLister (strL "empty/sub/") = none ∧
    findModuleFile witnessLister (strL "a/b/") = none := by
  refine ⟨?_, ?_, ?_⟩
  · exact ((c7_findModuleFile witnessLister (strL "src/")).2
      [strL "app.module.ts", strL "util.ts", strL "b.module.ts"] (by decide)).2
      (strL "app.module.ts") [strL "b.module.ts"] (by decide)
  · exact ((c7_findModuleFile witnessLister (strL "empty/sub/")).2
      [strL "x.ts"] (by decide)).1 (by decide)
  · exact (c7_findModuleFile witnessLister (strL "a/b/")).1 (by decide)

/-! ## Claim C9: normalizeOptions path invariant -/

/-- C9: the normalized directory always ends in `/`; an absent path gives
`src/`; a supplied path is unconditionally prefixed with `src/` (and a
trailing slash is appended unless already present). -/
theorem c9_normalizeOptions (options : GenerateOptions) :
    (normalizeOptions options).normalizedPath.getLast? = some '/' ∧
    (options.path = [] → (normalizeOptions options).normalizedPath = strL "src/") ∧
    (options.path ≠ [] →
      (normalizeOptions options).normalizedPath = strL "src/" ++ options.path ++ ['/'] ∨
      (normalizeOptions options).normalizedPath = strL "src/" ++ options.path) := by
  unfold normalizeOptions
  by_cases hp : options.path = []
  · refine ⟨?_, fun _ => ?_, fun h => absurd hp h⟩ <;>
      simp [hp, DEFAULT_PATH, strL]
  · have hap : (strL "src/" ++ options.path).getLast? = options.path.getLast? :=
      List.getLast?_append_of_ne_nil _ hp
    by_cases hl : options.path.getLast? = some '/'
    · refine ⟨?_, fun h => absurd h hp, fun _ => Or.inr ?_⟩ <;> simp [hp, hap, hl]
    · refine ⟨?_, fun h => absurd h hp, fun _ => Or.inl ?_⟩ <;>
        simp [hp, hap, hl, List.getLast?_concat]

/-- Witness for C9: the path option `app/users` yields `src/app/users/`. -/
theorem c9_witness :
    (normalizeOptions
      { name := strL "x", path := strL "app/users", skipImport := false,
        flat := false }).normalizedPath.getLast? = some '/' ∧
    ((normalizeOptions
      { name := strL "x", path := strL "app/users", skipImport := false,
        flat := false }).normalizedPath = strL "src/" ++ strL "app/users" ++ ['/'] ∨
     (normalizeOptions
      { name := strL "x", path := strL "app/users", skipImport := false,
        flat := false }).normalizedPath = strL "src/" ++ strL "app/users") := by
  have h := c9_normalizeOptions
    { name := strL "x", path := strL "app/users", skipImport := false, flat := false }
  exact ⟨h.1, h.2.2 (by decide)⟩

/-! ## Claim C10: the bare-handler-name guard skips the update -/

/-- C10: whenever the classified handler name occurs anywhere in the
located module file's content — a comment or an unrelated identifier
included — the command generator's `updateModuleFile` returns without
modifying the tree. -/
theorem c10_handlerNameGuard (tree : Tree) (name normalizedPath : List Char)
    (flat : Bool) (modulePath content : List Char)
    (hfind : findModuleFile (fun d => some (subfilesOf tree d)) normalizedPath =
      some modulePath)
    (hread : treeRead tree modulePath = some content)
    (hinc : includes content (classify name ++ strL "Handler") = true) :
    updateModuleFileCmd tree name normalizedPath flat = .ok tree := by
  unfold updateModuleFileCmd updateModuleContentCmd
  simp [hfind, hread, hinc]

/-- Witness for C10: a module file mentioning `CreateUserHandler` only in a
comment is left untouched. -/
theorem c10_witness :
    updateModuleFileCmd witnessTree (strL "create user") (strL "src/") false =
      .ok witnessTree := by
  exact c10_handlerNameGuard witnessTree (strL "create user") (strL "src/") false
    (strL "app.module.ts")
    (strL "// mentions CreateUserHandler in a comment\nexport const m = 1;\n")
    (by decide) (by decide) (by decide)

deriving instance DecidableEq for Except

/-! ## Claim C8: end-to-end command generation for `create user` -/

set_option maxRecDepth 40000 in
/-- C8: with identifier `create user` and defaults, exactly
`src/impl/create-user.command.ts` and `src/handlers/create-user.handler.ts`
are created and the handler imports from `../impl/create-user.command`;
with `flat` both files land in `src/` and the handler imports from
`./create-user.command`. -/
theorem c8_endToEnd :
    (commandRun []
      { name := strL "create user", path := [], skipImport := false, flat := false } =
      .ok
        [(strL "src/impl/create-user.command.ts",
          strL "\n\n  import \x7b Command \x7d from '@nestjs/cqrs';\n\nexport interface CreateUserCommandPayload \x7b\n  name: string;\n  description?: string;\n\x7d\n\nexport class CreateUserCommand extends Command<any> \x7b\n  constructor(public readonly payload: CreateUserCommandPayload) \x7b\n    super();\n  \x7d\n\x7d\n"),
         (strL "src/handlers/create-user.handler.ts",
          strL "\nimport \x7b CommandHandler, ICommandHandler \x7d from '@nestjs/cqrs';\nimport \x7b CreateUserCommand \x7d from '../impl/create-user.command';\n\n@CommandHandler(CreateUserCommand)\nexport class CreateUserHandler implements ICommandHandler<CreateUserCommand> \x7b\n  constructor() \x7b\x7d\n\n  async execute(command: CreateUserCommand): Promise<any> \x7b\n    const \x7b payload \x7d = command;\n    return \x7b success: true \x7d;\n  \x7d\n\x7d\n")]) ∧
    includes
      (strL "\nimport \x7b CommandHandler, ICommandHandler \x7d from '@nestjs/cqrs';\nimport \x7b CreateUserCommand \x7d from '../impl/create-user.command';\n\n@CommandHandler(CreateUserCommand)\nexport class CreateUserHandler implements ICommandHandler<CreateUserCommand> \x7b\n  constructor() \x7b\x7d\n\n  async execute(command: CreateUserCommand): Promise<any> \x7b\n    const \x7b payload \x7d = command;\n    return \x7b success: true \x7d;\n  \x7d\n\x7d\n")
      (strL "from '../impl/create-user.command'") = true ∧
    (commandRun []
      { name := strL "create user", path := [], skipImport := false, flat := true } =
      .ok
        [(strL "src/create-user.command.ts",
          strL "\n\n  import \x7b Command \x7d from '@nestjs/cqrs';\n\nexport interface CreateUserCommandPayload \x7b\n  name: string;\n  description?: string;\n\x7d\n\nexport class CreateUserCommand extends Command<any> \x7b\n  constructor(public readonly payload: CreateUserCommandPayload) \x7b\n    super();\n  \x7d\n\x7d\n"),
         (strL "src/create-user.handler.ts",
          strL "\nimport \x7b CommandHandler, ICommandHandler \x7d from '@nestjs/cqrs';\nimport \x7b CreateUserCommand \x7d from './create-user.command';\n\n@CommandHandler(CreateUserCommand)\nexport class CreateUserHandler implements ICommandHandler<CreateUserCommand> \x7b\n  constructor() \x7b\x7d\n\n  async execute(command: CreateUserCommand): Promise<any> \x7b\n    const \x7b payload \x7d = command;\n    return \x7b success: true \x7d;\n  \x7d\n\x7d\n")]) ∧
    includes
      (strL "\nimport \x7b CommandHandler, ICommandHandler \x7d from '@nestjs/cqrs';\nimport \x7b CreateUserCommand \x7d from './create-user.command';\n\n@CommandHandler(CreateUserCommand)\nexport class CreateUserHandler implements ICommandHandler<CreateUserCommand> \x7b\n  constructor() \x7b\x7d\n\n  async execute(command: CreateUserCommand): Promise<any> \x7b\n    const \x7b payload \x7d = command;\n    return \x7b success: true \x7d;\n  \x7d\n\x7d\n")
      (strL "from './create-user.command'") = true := by
  refine ⟨by decide, by decide, by decide, by decide⟩

/-! ## Claim C3: the missing-providers-array error

Only `utils/module-updater.ts` raises `No providers array found`. The
command pipeline (`command.ts`'s local `updateModuleFile`) and the query
pipeline (`utils/helpers/index.ts`'s `updateModuleFile`, the same code)
have no such check: on a file with no providers array they complete
silently, writing back the content with an added import and no
registration. -/

/-- Counterexample to C3: on a content with an import and no providers
array, the command pipeline's content transformation does not raise any
error — it returns a changed content whose import is added and which
still has no providers array. -/
theorem c3_counterexample :
    providersTest (strL "import a from 'b';\nexport class X \x7b\x7d\n") = false ∧
    updateModuleContentCmd (strL "foo") (strL "./x")
        (strL "import a from 'b';\nexport class X \x7b\x7d\n") =
      some (strL "import a from 'b';\nimport \x7b FooHandler \x7d from './x';\nexport class X \x7b\x7d\n") ∧
    providersTest
        (strL "import a from 'b';\nimport \x7b FooHandler \x7d from './x';\nexport class X \x7b\x7d\n") =
      false := by
  exact ⟨by decide, by decide, by decide⟩

/-- C3 as amended: `utils/module-updater.ts`'s `updateModuleFile` (alone)
raises the no-providers-array error whenever the updated content has no
providers array and the guard did not fire. -/
theorem c3_amended (name relPath content : List Char)
    (himp : includes content (mkImportStatement name relPath) = false)
    (hpe : includes content (mkProviderEntry name) = false)
    (hprov : providersTest
      (addImportStatement content (mkImportStatement name relPath)) = false) :
    updateModuleContentMU name relPath content = .error .noProvidersArray := by
  unfold updateModuleContentMU
  simp [himp, hpe, hprov]

/-- Witness for C3's amended theorem at the counterexample content. -/
theorem c3_witness :
    updateModuleContentMU (strL "foo") (strL "./x")
        (strL "import a from 'b';\nexport class X \x7b\x7d\n") =
      .error .noProvidersArray :=
  c3_amended (strL "foo") (strL "./x")
    (strL "import a from 'b';\nexport class X \x7b\x7d\n")
    (by decide) (by decide) (by decide)

/-! ## The three shapes of addProviderEntry -/

theorem addProviderEntry_no_match {content pe name : List Char}
    (h : provSearch content = none) :
    addProviderEntry content pe name = content := by
  unfold addProviderEntry
  rw [h]

theorem addProviderEntry_skip {content pe name pre ws inner post : List Char}
    (hsome : provSearch content = some (pre, ws, inner, post))
    (hinc : includes inner (classify name ++ strL "Handler") = true) :
    addProviderEntry content pe name = content := by
  unfold addProviderEntry
  rw [hsome]
  simp only [hinc, if_true]
  exact ((provSearch_sound hsome).1).symm

theorem addProviderEntry_insert {content pe name pre ws inner post : List Char}
    (hsome : provSearch content = some (pre, ws, inner, post))
    (hinc : includes inner (classify name ++ strL "Handler") = false) :
    addProviderEntry content pe name =
      pre ++ strL "providers: [" ++ trimJs inner ++
        (if trimJs inner ≠ [] ∧ (trimJs inner).getLast? ≠ some ',' then [','] else []) ++
        '\n' :: (pe ++ '\n' :: (strL "  ]" ++ post)) := by
  unfold addProviderEntry
  rw [hsome]
  simp [hinc]

/-- A suffix of `b` is a suffix of `a ++ b`. -/
theorem suffix_glue (a : List Char) {l b : List Char} (h : l <:+ b) : l <:+ a ++ b :=
  h.trans (List.suffix_append a b)

/-- A prefix of `a` is a prefix of `a ++ b`. -/
theorem prefix_glue {l a : List Char} (h : l <+: a) (b : List Char) : l <+: a ++ b :=
  h.trans (List.prefix_append a b)

/-- `trimJs l` is an infix of `l`. -/
theorem trimJs_isInf (l : List Char) : trimJs l <:+: l := by
  unfold trimJs dropRightWhile
  have h1 : (l.dropWhile isJsSpace) <:+ l := List.dropWhile_suffix _
  have h2 : ((l.dropWhile isJsSpace).reverse.dropWhile isJsSpace).reverse <+:
      l.dropWhile isJsSpace := by
    rw [← List.reverse_suffix]
    simpa using List.dropWhile_suffix (l := (l.dropWhile isJsSpace).reverse) isJsSpace
  exact h2.isInfix.trans h1.isInfix

/-! ## Claim C2: registration insertion is not purely line-additive -/

/-- Counterexample to C2: a pre-existing providers line (`  FooHandler`,
with its indentation) is no longer a line of the patched file — the trim
and re-emit merges it onto the `providers: [` line. -/
theorem c2_counterexample :
    (strL "  FooHandler") ∈ splitKeep '\n' (strL "providers: [\n  FooHandler\n]\n") ∧
    (strL "  FooHandler") ∉ splitKeep '\n'
      (addProviderEntry (strL "providers: [\n  FooHandler\n]\n")
        (strL "    BarHandler,") (strL "bar")) := by
  exact ⟨by decide, by decide⟩

/-- C2 as amended: the patch leaves everything before the providers match
and everything after its closing bracket byte-for-byte in place, keeps the
trimmed pre-existing entries contiguously, and inserts the new entry; but
the whitespace at the boundaries of the array interior is rewritten, so
line-level additivity fails (see the counterexample). -/
theorem c2_amended (content providerEntry name : List Char) :
    (provSearch content = none →
      addProviderEntry content providerEntry name = content) ∧
    (∀ pre ws inner post, provSearch content = some (pre, ws, inner, post) →
      content = pre ++ strL "providers:" ++ ws ++ '[' :: (inner ++ ']' :: post) ∧
      (includes inner (classify name ++ strL "Handler") = true →
        addProviderEntry content providerEntry name = content) ∧
      (includes inner (classify name ++ strL "Handler") = false →
        pre <+: addProviderEntry content providerEntry name ∧
        post <:+ addProviderEntry content providerEntry name ∧
        trimJs inner <:+: addProviderEntry content providerEntry name ∧
        providerEntry <:+: addProviderEntry content providerEntry name)) := by
  refine ⟨fun h => addProviderEntry_no_match h, fun pre ws inner post hsome => ?_⟩
  refine ⟨(provSearch_sound hsome).1, fun hinc => addProviderEntry_skip hsome hinc,
    fun hinc => ?_⟩
  rw [addProviderEntry_insert hsome hinc]
  have hpost : post <:+ '\n' :: (providerEntry ++ '\n' :: (strL "  ]" ++ post)) := by
    have h1 : post <:+ strL "  ]" ++ post := List.suffix_append _ _
    have h2 := h1.trans (List.suffix_cons '\n' (strL "  ]" ++ post))
    exact (suffix_glue providerEntry h2).trans
      (List.suffix_cons '\n' (providerEntry ++ '\n' :: (strL "  ]" ++ post)))
  refine ⟨?_, ?_, ?_, ?_⟩
  · exact prefix_glue (prefix_glue (prefix_glue (List.prefix_append _ _) _) _) _
  · exact suffix_glue _ hpost
  · exact ⟨pre ++ strL "providers: [",
      (if trimJs inner ≠ [] ∧ (trimJs inner).getLast? ≠ some ',' then [','] else []) ++
        '\n' :: (providerEntry ++ '\n' :: (strL "  ]" ++ post)),
      by simp [List.append_assoc]⟩
  · exact ⟨pre ++ strL "providers: [" ++ trimJs inner ++
      (if trimJs inner ≠ [] ∧ (trimJs inner).getLast? ≠ some ',' then [','] else []) ++
      ['\n'], '\n' :: (strL "  ]" ++ post), by simp [List.append_assoc]⟩

/-- Witness for C2's amended theorem: the concrete patched file keeps its
prefix, suffix, trimmed entries and the new entry. -/
theorem c2_witness :
    strL "providers: [\n  FooHandler\n]\n" =
      [] ++ strL "providers:" ++ strL " " ++
        '[' :: (strL "\n  FooHandler\n" ++ ']' :: strL "\n") ∧
    ([] : List Char) <+:
      addProviderEntry (strL "providers: [\n  FooHandler\n]\n")
        (strL "    BarHandler,") (strL "bar") ∧
    strL "\n" <:+
      addProviderEntry (strL "providers: [\n  FooHandler\n]\n")
        (strL "    BarHandler,") (strL "bar") ∧
    trimJs (strL "\n  FooHandler\n") <:+:
      addProviderEntry (strL "providers: [\n  FooHandler\n]\n")
        (strL "    BarHandler,") (strL "bar") ∧
    strL "    BarHandler," <:+:
      addProviderEntry (strL "providers: [\n  FooHandler\n]\n")
        (strL "    BarHandler,") (strL "bar") := by
  have h := (c2_amended (strL "providers: [\n  FooHandler\n]\n")
    (strL "    BarHandler,") (strL "bar")).2
    [] (strL " ") (strL "\n  FooHandler\n") (strL "\n") (by decide)
  obtain ⟨h1, _, h3⟩ := h
  obtain ⟨h4, h5, h6, h7⟩ := h3 (by decide)
  exact ⟨h1, h4, h5, h6, h7⟩

/-! ## Comma bookkeeping for C4 -/

theorem count_dropWhile_space {c : Char} (hc : isJsSpace c = false) (l : List Char) :
    (l.dropWhile isJsSpace).count c = l.count c := by
  conv_rhs => rw [← List.takeWhile_append_dropWhile (p := isJsSpace) (l := l)]
  rw [List.count_append]
  have : (l.takeWhile isJsSpace).count c = 0 := by
    rw [List.count_eq_zero]
    intro hm
    have := List.mem_takeWhile_imp hm
    rw [hc] at this
    exact Bool.false_ne_true this
  omega

theorem count_trimJs {c : Char} (hc : isJsSpace c = false) (l : List Char) :
    (trimJs l).count c = l.count c := by
  unfold trimJs dropRightWhile
  rw [List.count_reverse, count_dropWhile_space hc, List.count_reverse,
    count_dropWhile_space hc]

theorem hdc_append (a b : List Char) :
    hasDoubleComma (a ++ b) =
      (hasDoubleComma a || hasDoubleComma b || pairComma a.getLast? b.head?) := by
  induction a with
  | nil => cases b <;> simp [hasDoubleComma, pairComma]
  | cons x a' ih =>
    cases a' with
    | nil =>
      cases b with
      | nil => simp [hasDoubleComma, pairComma]
      | cons y b' =>
        show ((x == ',' && y == ',') || hasDoubleComma (y :: b')) = _
        simp [hasDoubleComma, pairComma, Bool.or_comm, Bool.or_left_comm]
    | cons y a'' =>
      show ((x == ',' && y == ',') || hasDoubleComma ((y :: a'') ++ b)) = _
      rw [ih]
      show _ = (((x == ',' && y == ',') || hasDoubleComma (y :: a'')) || _ || _)
      simp [Bool.or_assoc]

theorem hdc_of_infix {a b : List Char} (h : a <:+: b)
    (hb : hasDoubleComma b = false) : hasDoubleComma a = false := by
  obtain ⟨s, t, rfl⟩ := h
  rw [List.append_assoc, hdc_append, hdc_append] at hb
  simp only [Bool.or_eq_false_iff] at hb
  exact hb.1.2.1.1

theorem pairComma_left {c : Char} (h : (c == ',') = false) (o : Option Char) :
    pairComma (some c) o = false := by
  cases o <;> simp [pairComma, h]

theorem pairComma_right {c : Char} (h : (c == ',') = false) (o : Option Char) :
    pairComma o (some c) = false := by
  cases o <;> simp [pairComma, h]

theorem pairComma_ne {o : Option Char} (h : o ≠ some ',') :
    pairComma o (some ',') = false := by
  cases o with
  | none => rfl
  | some x =>
    have : ¬ x = ',' := fun hx => h (by rw [hx])
    simp [pairComma, this]

/-- `pre` is an infix of the content decomposed by `provSearch`. -/
theorem pre_infix_of_sound {content pre ws inner post : List Char}
    (hsome : provSearch content = some (pre, ws, inner, post)) :
    pre <:+: content :=
  ⟨[], strL "providers:" ++ ws ++ '[' :: (inner ++ ']' :: post),
    by simp [(provSearch_sound hsome).1, List.append_assoc]⟩

/-- `inner` is an infix of the content decomposed by `provSearch`. -/
theorem inner_infix_of_sound {content pre ws inner post : List Char}
    (hsome : provSearch content = some (pre, ws, inner, post)) :
    inner <:+: content :=
  ⟨pre ++ strL "providers:" ++ ws ++ ['['], ']' :: post,
    by simp [(provSearch_sound hsome).1, List.append_assoc]⟩

/-- `post` is an infix of the content decomposed by `provSearch`. -/
theorem post_infix_of_sound {content pre ws inner post : List Char}
    (hsome : provSearch content = some (pre, ws, inner, post)) :
    post <:+: content :=
  ⟨pre ++ strL "providers:" ++ ws ++ '[' :: inner ++ [']'], [],
    by simp [(provSearch_sound hsome).1, List.append_assoc]⟩

/-! ## Claim C4: the separating comma -/

/-- C4: on a non-empty providers array, the insertion adds exactly one
comma after the last pre-existing entry when a trailing comma is missing,
adds none when it is already there, and never introduces a double comma. -/
theorem c4_trailingComma (content entry name pre ws inner post : List Char)
    (hsome : provSearch content = some (pre, ws, inner, post))
    (hinc : includes inner (classify name ++ strL "Handler") = false)
    (hne : trimJs inner ≠ []) :
    ((trimJs inner).getLast? ≠ some ',' →
      addProviderEntry content entry name =
        pre ++ strL "providers: [" ++ trimJs inner ++ [','] ++
          '\n' :: (entry ++ '\n' :: (strL "  ]" ++ post)) ∧
      (addProviderEntry content entry name).count ',' =
        content.count ',' + entry.count ',' + 1) ∧
    ((trimJs inner).getLast? = some ',' →
      addProviderEntry content entry name =
        pre ++ strL "providers: [" ++ trimJs inner ++
          '\n' :: (entry ++ '\n' :: (strL "  ]" ++ post)) ∧
      (addProviderEntry content entry name).count ',' =
        content.count ',' + entry.count ',') ∧
    (hasDoubleComma content = false → hasDoubleComma entry = false →
      hasDoubleComma (addProviderEntry content entry name) = false) := by
  have hsound := provSearch_sound hsome
  have hres := @addProviderEntry_insert content entry name pre ws inner post hsome hinc
  have hws0 : ws.count ',' = 0 := by
    rw [List.count_eq_zero]
    intro hm
    have := hsound.2.1 ',' hm
    exact absurd this (by decide)
  have hcnt_inner : (trimJs inner).count ',' = inner.count ',' :=
    count_trimJs (by decide) inner
  have e1 : (strL "providers:").count ',' = 0 := by decide
  have e2 : (strL "providers: [").count ',' = 0 := by decide
  have e3 : (strL "  ]").count ',' = 0 := by decide
  have hcontent_cnt : content.count ',' =
      pre.count ',' + inner.count ',' + post.count ',' := by
    rw [hsound.1]
    simp [List.count_append, List.count_cons, hws0, e1]
    omega
  refine ⟨fun h1 => ?_, fun h1 => ?_, fun hc he => ?_⟩
  · have hif : (if trimJs inner ≠ [] ∧ (trimJs inner).getLast? ≠ some ',' then
        ([','] : List Char) else []) = [','] := if_pos ⟨hne, h1⟩
    rw [hres, hif]
    refine ⟨rfl, ?_⟩
    simp [List.count_append, List.count_cons, hcnt_inner, hcontent_cnt, e2, e3]
    omega
  · have hif : (if trimJs inner ≠ [] ∧ (trimJs inner).getLast? ≠ some ',' then
        ([','] : List Char) else []) = [] :=
      if_neg (fun h => h.2 h1)
    rw [hres, hif, List.append_nil]
    refine ⟨rfl, ?_⟩
    simp [List.count_append, List.count_cons, hcnt_inner, hcontent_cnt, e2, e3]
    omega
  · have hdc_pre : hasDoubleComma pre = false := hdc_of_infix (pre_infix_of_sound hsome) hc
    have hdc_post : hasDoubleComma post = false := hdc_of_infix (post_infix_of_sound hsome) hc
    have hdc_trim : hasDoubleComma (trimJs inner) = false :=
      hdc_of_infix ((trimJs_isInf inner).trans (inner_infix_of_sound hsome)) hc
    have hP1ne : strL "providers: [" ≠ ([] : List Char) := by decide
    have k1 : (strL "providers: [").head? = some 'p' := by decide
    have k2 : (strL "providers: [").getLast? = some '[' := by decide
    have k3 : hasDoubleComma (strL "providers: [") = false := by decide
    have k5 : (strL "  ]").getLast? = some ']' := by decide
    have k6 : hasDoubleComma (strL "  ]") = false := by decide
    have k7 : hasDoubleComma ([','] : List Char) = false := by decide
    have k8 : hasDoubleComma (['\n'] : List Char) = false := by decide
    have hdc_X : hasDoubleComma (pre ++ strL "providers: [" ++ trimJs inner) = false := by
      rw [hdc_append, hdc_append, List.getLast?_append_of_ne_nil pre hP1ne, k1, k2]
      simp [hdc_pre, hdc_trim, k3,
        pairComma_right (c := 'p') (by decide),
        pairComma_left (c := '[') (by decide)]
    have hdc_Xr : hasDoubleComma (pre ++ (strL "providers: [" ++ trimJs inner)) = false := by
      rw [← List.append_assoc]
      exact hdc_X
    have hdc_cons_tail : hasDoubleComma
        ('\n' :: (entry ++ '\n' :: (strL "  ]" ++ post))) = false := by
      rw [← List.singleton_append, hdc_append,
        show ('\n' :: (strL "  ]" ++ post)) = ['\n'] ++ (strL "  ]" ++ post) from rfl,
        hdc_append, hdc_append, hdc_append, k5]
      simp [he, hdc_post, k6, k8,
        pairComma_left (c := '\n') (by decide),
        pairComma_right (c := '\n') (by decide),
        pairComma_left (c := ']') (by decide)]
    by_cases h1 : (trimJs inner).getLast? = some ','
    · have hif : (if trimJs inner ≠ [] ∧ (trimJs inner).getLast? ≠ some ',' then
          ([','] : List Char) else []) = [] :=
        if_neg (fun h => h.2 h1)
      rw [hres, hif, List.append_nil, hdc_append]
      simp [hdc_X, hdc_Xr, hdc_cons_tail, pairComma_right (c := '\n') (by decide)]
    · have hif : (if trimJs inner ≠ [] ∧ (trimJs inner).getLast? ≠ some ',' then
          ([','] : List Char) else []) = [','] := if_pos ⟨hne, h1⟩
      rw [hres, hif, hdc_append, hdc_append]
      have hlastX : (pre ++ strL "providers: [" ++ trimJs inner).getLast? =
          (trimJs inner).getLast? := by
        rw [List.getLast?_append_of_ne_nil _ hne]
      have hlastC : (pre ++ strL "providers: [" ++ trimJs inner ++ [',']).getLast? =
          some ',' := List.getLast?_concat _
      rw [hlastX, hlastC]
      simp [hdc_X, hdc_Xr, hdc_cons_tail, k7, pairComma_ne h1,
        pairComma_right (c := '\n') (by decide)]

/-- Witness for C4: a non-empty providers array without a trailing comma
gets exactly one comma before the appended entry and no double comma. -/
theorem c4_witness :
    addProviderEntry (strL "const x = 1;\nproviders: [A,\n  B]\nrest")
        (strL "    XHandler,") (strL "x") =
      strL "const x = 1;\n" ++ strL "providers: [" ++ trimJs (strL "A,\n  B") ++ [','] ++
        '\n' :: (strL "    XHandler," ++ '\n' :: (strL "  ]" ++ strL "\nrest")) ∧
    (addProviderEntry (strL "const x = 1;\nproviders: [A,\n  B]\nrest")
        (strL "    XHandler,") (strL "x")).count ',' =
      (strL "const x = 1;\nproviders: [A,\n  B]\nrest").count ',' +
        (strL "    XHandler,").count ',' + 1 ∧
    hasDoubleComma (addProviderEntry (strL "const x = 1;\nproviders: [A,\n  B]\nrest")
        (strL "    XHandler,") (strL "x")) = false := by
  have h := c4_trailingComma (strL "const x = 1;\nproviders: [A,\n  B]\nrest")
    (strL "    XHandler,") (strL "x") (strL "const x = 1;\n") (strL " ")
    (strL "A,\n  B") (strL "\nrest") (by decide) (by decide) (by decide)
  exact ⟨(h.1 (by decide)).1, (h.1 (by decide)).2, h.2.2 (by decide) (by decide)⟩

/-! ## Replacement-substitution lemmas (for C5 and C1) -/

theorem expandRepl_cons_ne {m b a : List Char} {c : Char} {l : List Char}
    (hc : c ≠ '$') : expandRepl m b a (c :: l) = c :: expandRepl m b a l := by
  cases l with
  | nil => rfl
  | cons c2 r => simp [expandRepl, hc]

theorem expand_nodollar {m b a : List Char} :
    ∀ {l : List Char}, '$' ∉ l → expandRepl m b a l = l := by
  intro l
  induction l with
  | nil => intro _; rfl
  | cons c r ih =>
    intro h
    rw [expandRepl_cons_ne (fun hc => h (hc ▸ List.mem_cons_self _ _)),
      ih (fun hm => h (List.mem_cons_of_mem _ hm))]

theorem expand_tail_aux {m b a imp : List Char} (himp : '$' ∉ imp) :
    ∀ (n : Nat) (X : List Char), X.length = n →
      ∃ Y, expandRepl m b a (X ++ '\n' :: imp) = Y ++ imp := by
  intro n
  induction n using Nat.strong_induction_on with
  | _ n ih =>
    intro X hn
    match X, hn with
    | [], _ =>
      refine ⟨['\n'], ?_⟩
      rw [List.nil_append, expandRepl_cons_ne (by decide), expand_nodollar himp]
      rfl
    | [x], _ =>
      by_cases hx : x = '$'
      · subst hx
        refine ⟨['$', '\n'], ?_⟩
        show expandRepl m b a ('$' :: '\n' :: imp) = _
        cases imp with
        | nil => rfl
        | cons i r =>
          rw [show expandRepl m b a ('$' :: '\n' :: i :: r) =
            '$' :: expandRepl m b a ('\n' :: i :: r) from rfl]
          rw [expandRepl_cons_ne (by decide), expand_nodollar himp]
          rfl
      · refine ⟨[x, '\n'], ?_⟩
        rw [List.cons_append, List.nil_append, expandRepl_cons_ne hx,
          expandRepl_cons_ne (by decide), expand_nodollar himp]
        rfl
    | x :: x2 :: X', hn =>
      have hlt1 : X'.length < n := by rw [← hn]; simp only [List.length_cons]; omega
      have hlt2 : (x2 :: X').length < n := by
        rw [← hn]; simp only [List.length_cons]; omega
      by_cases hx : x = '$'
      · subst hx
        show ∃ Y, expandRepl m b a ('$' :: x2 :: (X' ++ '\n' :: imp)) = Y ++ imp
        by_cases h2 : x2 = '$'
        · subst h2
          obtain ⟨Y, hY⟩ := ih X'.length hlt1 X' rfl
          exact ⟨'$' :: Y, by simp [expandRepl, hY]⟩
        · by_cases h3 : x2 = '&'
          · subst h3
            obtain ⟨Y, hY⟩ := ih X'.length hlt1 X' rfl
            refine ⟨m ++ Y, ?_⟩
            simp [expandRepl, hY, show ('&' : Char) ≠ '$' by decide]
          · by_cases h4 : x2 = bt
            · subst h4
              obtain ⟨Y, hY⟩ := ih X'.length hlt1 X' rfl
              refine ⟨b ++ Y, ?_⟩
              simp [expandRepl, hY, h2, h3]
            · by_cases h5 : x2 = qc
              · subst h5
                obtain ⟨Y, hY⟩ := ih X'.length hlt1 X' rfl
                refine ⟨a ++ Y, ?_⟩
                simp [expandRepl, hY, h2, h3, h4]
              · obtain ⟨Y, hY⟩ := ih (x2 :: X').length hlt2 (x2 :: X') rfl
                refine ⟨'$' :: Y, ?_⟩
                rw [show (x2 :: X') ++ '\n' :: imp =
                  x2 :: (X' ++ '\n' :: imp) from rfl] at hY
                simp [expandRepl, hY, h2, h3, h4, h5]
      · obtain ⟨Y, hY⟩ := ih (x2 :: X').length hlt2 (x2 :: X') rfl
        refine ⟨x :: Y, ?_⟩
        rw [List.cons_append, expandRepl_cons_ne hx, hY]
        rfl

theorem expand_tail {m b a imp : List Char} (himp : '$' ∉ imp) (X : List Char) :
    ∃ Y, expandRepl m b a (X ++ '\n' :: imp) = Y ++ imp :=
  expand_tail_aux himp X.length X rfl

theorem firstOccur_of_isPrefix {s pat : List Char} (h : pat.isPrefixOf s = true) :
    firstOccur s pat = some 0 := by
  cases s with
  | nil => unfold firstOccur; rw [if_pos h]
  | cons c r => unfold firstOccur; rw [if_pos h]

theorem firstOccur_spec {pat : List Char} :
    ∀ {s : List Char} {i : Nat}, firstOccur s pat = some i →
      s.take i ++ pat ++ s.drop (i + pat.length) = s := by
  intro s
  induction s with
  | nil =>
    intro i h
    unfold firstOccur at h
    split at h
    case isTrue hp =>
      obtain ⟨t, ht⟩ := List.isPrefixOf_iff_prefix.mp hp
      have hpat : pat = [] := by
        cases pat with
        | nil => rfl
        | cons a l => simp at ht
      simp only [Option.some.injEq] at h
      subst h
      simp [hpat]
    case isFalse => simp at h
  | cons c r ih =>
    intro i h
    unfold firstOccur at h
    split at h
    case isTrue hp =>
      simp only [Option.some.injEq] at h
      subst h
      obtain ⟨t, ht⟩ := List.isPrefixOf_iff_prefix.mp hp
      rw [List.take_zero, List.nil_append, Nat.zero_add, ← ht, List.drop_left]
    case isFalse =>
      cases hfo : firstOccur r pat with
      | none => rw [hfo] at h; simp at h
      | some j =>
        rw [hfo] at h
        simp only [Option.map_some', Option.some.injEq] at h
        subst h
        have hr := ih hfo
        rw [List.take_succ_cons,
          show j + 1 + pat.length = (j + pat.length) + 1 from by omega,
          List.drop_succ_cons, List.cons_append, List.cons_append, hr]

theorem firstOccur_isSome_of_inf {pat : List Char} :
    ∀ {s : List Char}, pat <:+: s → (firstOccur s pat).isSome := by
  intro s
  induction s with
  | nil =>
    intro h
    have hp : pat = [] := List.eq_nil_of_infix_nil h
    subst hp
    decide
  | cons c r ih =>
    intro h
    rw [List.infix_cons_iff] at h
    rcases h with hp | hi
    · rw [firstOccur_of_isPrefix (List.isPrefixOf_iff_prefix.mpr hp)]
      rfl
    · unfold firstOccur
      split
      · rfl
      · simpa using ih hi

theorem firstOccur_of_unique {pat A : List Char} :
    ∀ {content B : List Char}, content = A ++ pat ++ B →
      (∀ A' B', content = A' ++ pat ++ B' → A' = A) →
      firstOccur content pat = some A.length := by
  induction A with
  | nil =>
    intro content B hc _
    have hp : pat.isPrefixOf content = true := by
      apply List.isPrefixOf_iff_prefix.mpr
      exact ⟨B, by rw [hc]; simp⟩
    rw [firstOccur_of_isPrefix hp]
    rfl
  | cons x A' ih =>
    intro content B hc huniq
    have hshape : content = x :: (A' ++ pat ++ B) := by simp [hc]
    have hnp : pat.isPrefixOf content = false := by
      cases hb : pat.isPrefixOf content
      · rfl
      · obtain ⟨t, ht⟩ := List.isPrefixOf_iff_prefix.mp hb
        have := huniq [] t (by rw [← ht]; simp)
        simp at this
    rw [hshape]
    unfold firstOccur
    rw [if_neg (by rw [← hshape, hnp]; exact Bool.false_ne_true ∘ id)]
    have huniq2 : ∀ A2 B2, A' ++ pat ++ B = A2 ++ pat ++ B2 → A2 = A' := by
      intro A2 B2 he
      have := huniq (x :: A2) B2 (by rw [hshape, he]; simp)
      simpa using this
    rw [ih rfl huniq2]
    rfl

theorem replaceFirst_of_unique {content pat A B repl : List Char}
    (hc : content = A ++ pat ++ B)
    (huniq : ∀ A' B', content = A' ++ pat ++ B' → A' = A) :
    replaceFirstStr content pat repl = A ++ expandRepl pat A B repl ++ B := by
  unfold replaceFirstStr
  rw [firstOccur_of_unique hc huniq]
  have htake : content.take A.length = A := by
    rw [hc, List.append_assoc]
    exact List.take_left _ _
  have hdrop : content.drop (A.length + pat.length) = B := by
    rw [hc]
    exact List.drop_left' (by simp)
  simp only [htake, hdrop]

theorem goImports_infix :
    ∀ (fuel : Nat) {s x : List Char}, x ∈ goImports fuel s → x <:+: s := by
  intro fuel
  induction fuel with
  | zero => intro s x hx; simp [goImports] at hx
  | succ fuel ih =>
    intro s x hx
    cases s with
    | nil => simp [goImports] at hx
    | cons c r =>
      rw [goImports] at hx
      cases hm : matchImportAt (c :: r) with
      | some l =>
        rw [hm] at hx
        rw [List.mem_cons] at hx
        rcases hx with rfl | hx
        · exact (List.take_prefix l (c :: r)).isInfix
        · exact (ih hx).trans (List.drop_suffix l (c :: r)).isInfix
      | none =>
        rw [hm] at hx
        exact (ih hx).trans (List.suffix_cons c r).isInfix

theorem matchImports_infix {content L : List Char}
    (h : L ∈ matchImports content) : L <:+: content :=
  goImports_infix content.length h

/-! ## Claim C5: import insertion position -/

/-- Counterexample to C5: with two identical import statements, the new
one is inserted after the first, not after the last match —
`String.prototype.replace` with a string pattern replaces the first
occurrence of the last match's text. -/
theorem c5_counterexample :
    addImportStatement (strL "import a from 'x';\nimport a from 'x';\nrest")
        (strL "import Z from 'q';") =
      strL "import a from 'x';\nimport Z from 'q';\nimport a from 'x';\nrest" ∧
    addImportStatement (strL "import a from 'x';\nimport a from 'x';\nrest")
        (strL "import Z from 'q';") ≠
      strL "import a from 'x';\nimport a from 'x';\nimport Z from 'q';\nrest" := by
  exact ⟨by decide, by decide⟩

/-- C5 as amended: with no import match the new line is prepended; with
matches, the new import is inserted immediately after the first occurrence
of the last match's text — which is the last matching statement whenever
that text occurs at only one position — and (for `$`-free texts) all other
content is unchanged byte for byte. -/
theorem c5_addImportStatement (content imp : List Char) :
    (matchImports content = [] →
      addImportStatement content imp = imp ++ '\n' :: content) ∧
    (∀ L A B, (matchImports content).getLast? = some L →
      content = A ++ L ++ B →
      (∀ i, i ≤ content.length → L.isPrefixOf (content.drop i) = true →
        i = A.length) →
      '$' ∉ L → '$' ∉ imp →
      addImportStatement content imp = A ++ (L ++ '\n' :: imp) ++ B) := by
  constructor
  · intro h
    unfold addImportStatement
    rw [h]
    rfl
  · intro L A B hlast hdecomp hocc hL himp
    unfold addImportStatement
    rw [hlast]
    show replaceFirstStr content L (L ++ '\n' :: imp) = _
    have huniq : ∀ A' B', content = A' ++ L ++ B' → A' = A := by
      intro A' B' he
      have hlen : A'.length ≤ content.length := by
        rw [he]
        simp only [List.length_append]
        omega
      have hpre : L.isPrefixOf (content.drop A'.length) = true := by
        apply List.isPrefixOf_iff_prefix.mpr
        rw [he, List.append_assoc, List.drop_left]
        exact ⟨B', rfl⟩
      have hAA := hocc A'.length hlen hpre
      have h1 : A' = content.take A'.length := by
        rw [he, List.append_assoc, List.take_left]
      rw [h1, hAA, hdecomp, List.append_assoc]
      exact List.take_left _ _
    rw [replaceFirst_of_unique hdecomp huniq]
    rw [expand_nodollar ?hnd]
    case hnd =>
      intro hm
      rcases List.mem_append.mp hm with h | h
      · exact hL h
      · rcases List.mem_cons.mp h with h | h
        · exact absurd h (by decide)
        · exact himp h

/-- Witness for C5's amended theorem: a single import statement gets the
new import inserted right after it. -/
theorem c5_witness :
    addImportStatement (strL "import a from 'x';\nrest")
        (strL "import Z from 'q';") =
      [] ++ (strL "import a from 'x';" ++ '\n' :: strL "import Z from 'q';") ++
        strL "\nrest" := by
  exact (c5_addImportStatement (strL "import a from 'x';\nrest")
      (strL "import Z from 'q';")).2
    (strL "import a from 'x';") [] (strL "\nrest")
    (by decide) (by decide) (by decide) (by decide) (by decide)

/-! ## Claim C1: idempotence of the composed patch -/

/-- `addProviderEntry` either leaves the content unchanged or its result
contains the provider entry preceded by a newline. -/
theorem addProviderEntry_cases (content pe name : List Char) :
    addProviderEntry content pe name = content ∨
      ('\n' :: pe) <:+: addProviderEntry content pe name := by
  cases hp : provSearch content with
  | none => exact Or.inl (addProviderEntry_no_match hp)
  | some q =>
    obtain ⟨pre, ws, inner, post⟩ := q
    cases hinc : includes inner (classify name ++ strL "Handler") with
    | true => exact Or.inl (addProviderEntry_skip hp hinc)
    | false =>
      right
      rw [addProviderEntry_insert hp hinc]
      exact ⟨pre ++ strL "providers: [" ++ trimJs inner ++
        (if trimJs inner ≠ [] ∧ (trimJs inner).getLast? ≠ some ',' then [','] else []),
        '\n' :: (strL "  ]" ++ post), by simp [List.append_assoc]⟩

/-- The inserted import statement is contained verbatim in the result of
`addImportStatement` whenever it is free of dollar characters. -/
theorem imp_infix_addImport {content imp : List Char} (himp : '$' ∉ imp) :
    imp <:+: addImportStatement content imp := by
  unfold addImportStatement
  cases hlast : (matchImports content).getLast? with
  | none => exact ⟨[], '\n' :: content, by simp⟩
  | some L =>
    show imp <:+: replaceFirstStr content L (L ++ '\n' :: imp)
    have hmem : L ∈ matchImports content :=
      List.mem_of_mem_getLast? (by rw [hlast]; rfl)
    have hinf : L <:+: content := matchImports_infix hmem
    obtain ⟨i, hi⟩ : ∃ i, firstOccur content L = some i :=
      Option.isSome_iff_exists.mp (firstOccur_isSome_of_inf hinf)
    unfold replaceFirstStr
    rw [hi]
    show imp <:+: content.take i ++
      expandRepl L (content.take i) (content.drop (i + L.length)) (L ++ '\n' :: imp) ++
      content.drop (i + L.length)
    obtain ⟨Y, hY⟩ := expand_tail (m := L) (b := content.take i)
      (a := content.drop (i + L.length)) himp L
    rw [hY]
    exact ⟨content.take i ++ Y, content.drop (i + L.length), by simp [List.append_assoc]⟩

set_option maxRecDepth 200000 in
/-- Counterexample to C1: a canonical name containing a dollar-ampersand
pair defeats idempotence — `String.prototype.replace`'s substitution
mangles the inserted import statement, so the guard misses it and a second
run changes the file again. -/
theorem c1_counterexample :
    runMU (strL "a$&b") (strL "./x.handler")
        (runMU (strL "a$&b") (strL "./x.handler")
          (strL "import x from 'y';\nproviders: [A$&bHandler]\n")) ≠
      runMU (strL "a$&b") (strL "./x.handler")
        (strL "import x from 'y';\nproviders: [A$&bHandler]\n") := by
  decide

/-- C1 as amended: whenever the generated import statement contains no
dollar character, the module-updater content transformation is idempotent:
a second run with identical inputs changes nothing. -/
theorem c1_idempotent (name relPath content : List Char)
    (h : '$' ∉ mkImportStatement name relPath) :
    runMU name relPath (runMU name relPath content) =
      runMU name relPath content := by
  cases hu : updateModuleContentMU name relPath content with
  | error e =>
    have hrc : runMU name relPath content = content := by unfold runMU; rw [hu]
    rw [hrc]
    exact hrc
  | ok oc =>
    cases oc with
    | none =>
      have hrc : runMU name relPath content = content := by unfold runMU; rw [hu]
      rw [hrc]
      exact hrc
    | some c' =>
      have hrc : runMU name relPath content = c' := by unfold runMU; rw [hu]
      rw [hrc]
      unfold updateModuleContentMU at hu
      replace hu : (if (includes content (mkImportStatement name relPath) ||
          includes content (mkProviderEntry name)) = true then
            (Except.ok none : Except UpdateError (Option (List Char)))
          else if (! providersTest
              (addImportStatement content (mkImportStatement name relPath))) = true then
            Except.error UpdateError.noProvidersArray
          else Except.ok (some (addProviderEntry
            (addImportStatement content (mkImportStatement name relPath))
            (mkProviderEntry name) name))) = Except.ok (some c') := hu
      split at hu
      case isTrue => simp at hu
      case isFalse hg =>
        split at hu
        case isTrue => simp at hu
        case isFalse hpt =>
          simp only [Except.ok.injEq, Option.some.injEq] at hu
          have hguard : (includes c' (mkImportStatement name relPath) ||
              includes c' (mkProviderEntry name)) = true := by
            rcases addProviderEntry_cases
              (addImportStatement content (mkImportStatement name relPath))
              (mkProviderEntry name) name with heq | hinf
            · rw [heq] at hu
              rw [Bool.or_eq_true]
              left
              rw [includes_iff, ← hu]
              exact imp_infix_addImport h
            · rw [hu] at hinf
              rw [Bool.or_eq_true]
              right
              rw [includes_iff]
              refine List.IsInfix.trans ?_ hinf
              exact ⟨['\n'], [], by simp⟩
          unfold runMU updateModuleContentMU
          rw [if_pos hguard]

/-- Witness for C1's amended theorem at a dollar-free name. -/
theorem c1_witness :
    runMU (strL "foo") (strL "../handlers/foo.handler")
        (runMU (strL "foo") (strL "../handlers/foo.handler")
          (strL "import a from 'b';\nproviders: [\n  ]\n")) =
      runMU (strL "foo") (strL "../handlers/foo.handler")
        (strL "import a from 'b';\nproviders: [\n  ]\n") := by
  exact c1_idempotent (strL "foo") (strL "../handlers/foo.handler")
    (strL "import a from 'b';\nproviders: [\n  ]\n") (by decide)

/-! ## Path-segment lemmas for C6 -/

theorem splitKeep_ne_nil (sep : Char) (s : List Char) : splitKeep sep s ≠ [] := by
  cases s with
  | nil => simp [splitKeep]
  | cons c r =>
    unfold splitKeep
    by_cases h : c = sep
    · simp [h]
    · rw [if_neg h]
      cases splitKeep sep r <;> simp

theorem splitKeep_noSep {sep : Char} {p : List Char} (hp : ∀ c ∈ p, c ≠ sep) :
    splitKeep sep p = [p] := by
  induction p with
  | nil => rfl
  | cons c r ih =>
    unfold splitKeep
    rw [if_neg (hp c (List.mem_cons_self _ _))]
    rw [ih fun c hc => hp c (List.mem_cons_of_mem _ hc)]

theorem splitKeep_append_sep {sep : Char} {p b : List Char}
    (hp : ∀ c ∈ p, c ≠ sep) :
    splitKeep sep (p ++ sep :: b) = p :: splitKeep sep b := by
  induction p with
  | nil =>
    show splitKeep sep (sep :: b) = [] :: splitKeep sep b
    conv_lhs => rw [splitKeep]
    rw [if_pos rfl]
  | cons c r ih =>
    show splitKeep sep (c :: (r ++ sep :: b)) = _
    conv_lhs => rw [splitKeep]
    rw [if_neg (hp c (List.mem_cons_self _ _)),
      ih fun c hc => hp c (List.mem_cons_of_mem _ hc)]

theorem splitKeep_mem_noSep {sep : Char} :
    ∀ {s x : List Char}, x ∈ splitKeep sep s → sep ∉ x := by
  intro s
  induction s with
  | nil =>
    intro x hx
    simp [splitKeep] at hx
    simp [hx]
  | cons c r ih =>
    intro x hx
    unfold splitKeep at hx
    by_cases h : c = sep
    · rw [if_pos h] at hx
      rcases List.mem_cons.mp hx with rfl | hx
      · simp
      · exact ih hx
    · rw [if_neg h] at hx
      cases hk : splitKeep sep r with
      | nil => exact absurd hk (splitKeep_ne_nil sep r)
      | cons hd tl =>
        rw [hk] at hx
        rcases List.mem_cons.mp hx with rfl | hx
        · intro hm
          rcases List.mem_cons.mp hm with rfl | hm
          · exact h rfl
          · exact ih (hk ▸ List.mem_cons_self hd tl) hm
        · exact ih (hk ▸ List.mem_cons_of_mem hd hx)

theorem splitSegs_wf (s : List Char) : ∀ x ∈ splitSegs s, x ≠ [] ∧ '/' ∉ x := by
  intro x hx
  unfold splitSegs at hx
  rw [List.mem_filter] at hx
  refine ⟨by simpa using hx.2, splitKeep_mem_noSep hx.1⟩

theorem splitSegs_noSlash {p : List Char} (hp : ∀ c ∈ p, c ≠ '/') (hne : p ≠ []) :
    splitSegs p = [p] := by
  unfold splitSegs
  rw [splitKeep_noSep hp]
  simp [hne]

theorem splitSegs_append_seg {p b : List Char} (hp : ∀ c ∈ p, c ≠ '/')
    (hne : p ≠ []) : splitSegs (p ++ '/' :: b) = p :: splitSegs b := by
  unfold splitSegs
  rw [splitKeep_append_sep hp]
  simp [hne]

theorem splitSegs_joinChar :
    ∀ {parts : List (List Char)}, (∀ x ∈ parts, x ≠ [] ∧ '/' ∉ x) →
      splitSegs (joinChar '/' parts) = parts := by
  intro parts
  induction parts with
  | nil => intro _; rfl
  | cons p rest ih =>
    intro hwf
    cases rest with
    | nil =>
      show splitSegs p = [p]
      exact splitSegs_noSlash
        (fun c hc he => (hwf p (List.mem_cons_self _ _)).2 (he ▸ hc))
        (hwf p (List.mem_cons_self _ _)).1
    | cons q rest' =>
      show splitSegs (p ++ '/' :: joinChar '/' (q :: rest')) = _
      rw [splitSegs_append_seg
        (fun c hc he => (hwf p (List.mem_cons_self _ _)).2 (he ▸ hc))
        (hwf p (List.mem_cons_self _ _)).1]
      rw [ih fun x hx => hwf x (List.mem_cons_of_mem _ hx)]

theorem commonLen_append {C F T : List (List Char)}
    (hmax : F = [] ∨ T = [] ∨ F.head? ≠ T.head?) :
    commonLen (C ++ F) (C ++ T) = C.length := by
  induction C with
  | nil =>
    rcases hmax with rfl | rfl | hne
    · cases T <;> rfl
    · cases F <;> rfl
    · cases F with
      | nil => rfl
      | cons f F' =>
        cases T with
        | nil => rfl
        | cons t T' =>
          show commonLen (f :: F') (t :: T') = 0
          unfold commonLen
          rw [if_neg (by simpa using hne)]
  | cons c C' ih =>
    show commonLen (c :: (C' ++ F)) (c :: (C' ++ T)) = C'.length + 1
    unfold commonLen
    rw [if_pos rfl, ih]

theorem resolveRel_append (b : List (List Char)) (x y : List (List Char)) :
    resolveRel b (x ++ y) = resolveRel (resolveRel b x) y :=
  List.foldl_append _ _ _ _

theorem resolveRel_pops :
    ∀ (k : Nat) (b : List (List Char)),
      resolveRel b (List.replicate k (strL "..")) = b.take (b.length - k) := by
  intro k
  induction k with
  | zero => intro b; simp [resolveRel]
  | succ k ih =>
    intro b
    rw [List.replicate_succ]
    have h1 : resolveRel b (strL ".." :: List.replicate k (strL "..")) =
        resolveRel b.dropLast (List.replicate k (strL "..")) := by
      show List.foldl _ _ _ = _
      rw [List.foldl_cons]
      rw [if_neg (show strL ".." ≠ strL "." from by decide), if_pos rfl]
      rfl
    rw [h1, ih, List.dropLast_eq_take, List.length_take, List.take_take]
    congr 1
    omega

theorem resolveRel_clean :
    ∀ {T : List (List Char)}, (∀ x ∈ T, x ≠ strL "." ∧ x ≠ strL "..") →
      ∀ b, resolveRel b T = b ++ T := by
  intro T
  induction T with
  | nil => intro _ b; simp [resolveRel]
  | cons t T' ih =>
    intro hcl b
    have ht := hcl t (List.mem_cons_self _ _)
    show List.foldl _ _ _ = _
    rw [List.foldl_cons, if_neg ht.1, if_neg ht.2]
    have := ih (fun x hx => hcl x (List.mem_cons_of_mem _ hx)) (b ++ [t])
    rw [show List.foldl _ (b ++ [t]) T' = resolveRel (b ++ [t]) T' from rfl, this]
    simp

/-! ## Claim C6: the relative-path calculator -/

/-- C6: the relative path is one `..` per source segment past the common
prefix followed by the target segments past it, `./`-prefixed when not
starting with `../`; and resolving it against the source directory yields
the target (stated for proper virtual-tree paths: no `.` or `..`
segments). -/
theorem c6_getRelativePath (fromPath toPath : List Char) (C F T : List (List Char))
    (hF : splitSegs (dropTrailingSlash fromPath) = C ++ F)
    (hT : splitSegs toPath = C ++ T)
    (hmax : F = [] ∨ T = [] ∨ F.head? ≠ T.head?)
    (hclean : ∀ seg ∈ C ++ F ++ T, seg ≠ strL "." ∧ seg ≠ strL "..") :
    getRelativePath fromPath toPath =
      (if (strL "../").isPrefixOf
          (joinChar '/' (List.replicate F.length (strL "..") ++ T)) then
        joinChar '/' (List.replicate F.length (strL "..") ++ T)
      else strL "./" ++ joinChar '/' (List.replicate F.length (strL "..") ++ T)) ∧
    resolveRel (C ++ F) (splitSegs (getRelativePath fromPath toPath)) = C ++ T := by
  have hcommon : commonLen (C ++ F) (C ++ T) = C.length := commonLen_append hmax
  have hres : getRelativePath fromPath toPath =
      (if (strL "../").isPrefixOf
          (joinChar '/' (List.replicate F.length (strL "..") ++ T)) then
        joinChar '/' (List.replicate F.length (strL "..") ++ T)
      else strL "./" ++ joinChar '/' (List.replicate F.length (strL "..") ++ T)) := by
    unfold getRelativePath
    rw [hF, hT]
    simp only [hcommon]
    rw [List.length_append, Nat.add_sub_cancel_left, List.drop_left]
  refine ⟨hres, ?_⟩
  rw [hres]
  have hwfT : ∀ x ∈ T, x ≠ [] ∧ '/' ∉ x := fun x hx =>
    splitSegs_wf toPath x (by rw [hT]; exact List.mem_append_right C hx)
  have hwfParts : ∀ x ∈ List.replicate F.length (strL "..") ++ T,
      x ≠ [] ∧ '/' ∉ x := by
    intro x hx
    rcases List.mem_append.mp hx with hx | hx
    · have := List.eq_of_mem_replicate hx
      subst this
      exact ⟨by decide, by decide⟩
    · exact hwfT x hx
  have hsplit_joined : splitSegs (joinChar '/' (List.replicate F.length (strL "..") ++ T)) =
      List.replicate F.length (strL "..") ++ T := splitSegs_joinChar hwfParts
  have hTclean : ∀ x ∈ T, x ≠ strL "." ∧ x ≠ strL ".." := fun x hx =>
    hclean x (List.mem_append_right (C ++ F) hx)
  have hmain : resolveRel (C ++ F) (List.replicate F.length (strL "..") ++ T) =
      C ++ T := by
    rw [resolveRel_append, resolveRel_pops]
    have hlen : (C ++ F).length - F.length = C.length := by
      simp [List.length_append]
    rw [hlen, List.take_left]
    exact resolveRel_clean hTclean C
  by_cases hpre : (strL "../").isPrefixOf
      (joinChar '/' (List.replicate F.length (strL "..") ++ T)) = true
  · rw [if_pos hpre, hsplit_joined]
    exact hmain
  · rw [if_neg hpre]
    have hsh : strL "./" ++ joinChar '/' (List.replicate F.length (strL "..") ++ T) =
        strL "." ++ '/' :: joinChar '/' (List.replicate F.length (strL "..") ++ T) :=
      rfl
    rw [hsh, splitSegs_append_seg (by decide) (by decide), hsplit_joined]
    have hstep : resolveRel (C ++ F)
        (strL "." :: (List.replicate F.length (strL "..") ++ T)) =
        resolveRel (C ++ F) (List.replicate F.length (strL "..") ++ T) := by
      show List.foldl _ _ _ = _
      rw [List.foldl_cons, if_pos rfl]
      rfl
    rw [hstep]
    exact hmain

/-- Witness for C6: the spec's concrete cases — source `a/b/`, target
`a/c/d` gives `../c/d`; a target in the source directory itself gives
`./basename`. -/
theorem c6_witness :
    getRelativePath (strL "a/b/") (strL "a/c/d") = strL "../c/d" ∧
    resolveRel [strL "a", strL "b"]
      (splitSegs (getRelativePath (strL "a/b/") (strL "a/c/d"))) =
      [strL "a", strL "c", strL "d"] ∧
    getRelativePath (strL "src/") (strL "src/x.handler") = strL "./x.handler" ∧
    resolveRel [strL "src"]
      (splitSegs (getRelativePath (strL "src/") (strL "src/x.handler"))) =
      [strL "src", strL "x.handler"] := by
  have h1 := c6_getRelativePath (strL "a/b/") (strL "a/c/d")
    [strL "a"] [strL "b"] [strL "c", strL "d"]
    (by decide) (by decide) (by decide) (by decide)
  have h2 := c6_getRelativePath (strL "src/") (strL "src/x.handler")
    [strL "src"] [] [strL "x.handler"]
    (by decide) (by decide) (by decide) (by decide)
  refine ⟨?_, ?_, ?_, ?_⟩
  · rw [h1.1]; decide
  · exact h1.2
  · rw [h2.1]; decide
  · exact h2.2

end Cqrs
